import Mathlib

/-!
Verification of the font_tracer outline-tracing pipeline.

This file gives a shallow embedding of `src/bezier_sampling.py` and
`src/font2vertices.py`.  Coordinates are modelled as rationals (the Python
code computes with floats; every operation involved is +, -, *, / so the
algebraic content is captured exactly).  NumPy arrays of 2-d points become
`List Point`; the flattened 1-d buffers produced by `reshape(-1)` /
`np.concatenate` become `List ℚ`.  Python's negative indexing and slicing
are modelled by `pyGetD` and `pySlice` (out-of-range access, which raises
IndexError in Python, is modelled by a default value / clamping and is not
exercised by any theorem below).  The fallible `trace_conic_off_points`
(which can `raise ValueError`) returns `Except String`.
-/

namespace FontTracer

abbrev Point : Type := ℚ × ℚ

/-- NumPy's elementwise division of a 2-d point by a scalar. -/
def pointDiv (p : Point) (c : ℚ) : Point := (p.1 / c, p.2 / c)

instance : HDiv Point ℚ Point := ⟨pointDiv⟩

theorem pointDiv_def (p : Point) (c : ℚ) : p / c = (p.1 / c, p.2 / c) := rfl

/-- FreeType curve tags: `FT_Curve_Tag_On = 1`, `FT_Curve_Tag_Conic = 0`,
`FT_Curve_Tag_Cubic = 2`. -/
inductive FTTag
  | onCurve
  | conic
  | cubic
deriving DecidableEq

/-- The integer value of a FreeType tag, used when Python stringifies a tag
in an error message. -/
def tagNum : FTTag → ℕ
  | .onCurve => 1
  | .conic => 0
  | .cubic => 2

/-- Model of `np.linspace a b n`: `n` evenly spaced values from `a` to `b` inclusive.
For `n = 1` the division by zero yields `0` in `ℚ`, so the single sample is
`a`, matching NumPy. -/
def linspace (a b : ℚ) (n : ℕ) : List ℚ :=
  (List.range n).map (fun k : ℕ => a + (k : ℚ) * (b - a) / ((n : ℚ) - 1))

/-- Function `bernstein_poly` from `bezier_sampling.py`:
`comb(n, i) * t**(n-i) * (1 - t)**i`.  Note the exponents are swapped with
respect to the textbook Bernstein basis. -/
def bernstein_poly (i n : ℕ) (t : ℚ) : ℚ :=
  (n.choose i : ℚ) * t ^ (n - i) * (1 - t) ^ i

/-- One row of the `np.dot(np.transpose(polynomial_array), points)` product:
the curve point at parameter `t`. -/
def bezierPoint (points : List Point) (t : ℚ) : Point :=
  ∑ i ∈ Finset.range points.length,
    bernstein_poly i (points.length - 1) t • points.getD i 0

/-- Function `bezier_curve` from `bezier_sampling.py`: samples at
`t = np.linspace(1.0, 0.0, n_samples)`. -/
def bezier_curve (points : List Point) (n_samples : ℕ) : List Point :=
  (linspace 1 0 n_samples).map (bezierPoint points)

/-- Python list indexing with a (single-wrap) negative index, total via a
default value. -/
def pyGetD {α : Type} (l : List α) (i : ℤ) (d : α) : α :=
  if i < 0 then l.getD (i + l.length).toNat d else l.getD i.toNat d

/-- Python slice `l[i:j]` with negative-index normalisation and clamping. -/
def pySlice {α : Type} (l : List α) (i j : ℤ) : List α :=
  let n : ℤ := l.length
  let i2 := if i < 0 then max 0 (n + i) else min i n
  let j2 := if j < 0 then max 0 (n + j) else min j n
  (l.drop i2.toNat).take (j2 - i2).toNat

/-- Flatten a list of 2-d points into the 1-d buffer NumPy's `reshape(-1)`
produces. -/
def flat (ps : List Point) : List ℚ :=
  (ps.map (fun p => [p.1, p.2])).flatten

/-- Function `trace_cubic_off_points` from `font2vertices.py`.  Traces only when the
point at `idx` is the second of a pair of off-cubic points; otherwise the
result is the empty buffer. -/
def trace_cubic_off_points (c_points : List Point) (c_tags : List FTTag)
    (idx : ℕ) (n_segments : ℕ) : List ℚ :=
  let idx_prev : ℤ := (idx : ℤ) - 1
  let idx_next : ℤ := if idx = c_points.length - 1 then 0 else (idx : ℤ) + 1
  if pyGetD c_tags idx_prev .onCurve = .cubic ∧ c_tags.getD idx .onCurve = .cubic then
    flat (bezier_curve [pyGetD c_points (idx_prev - 1) 0,
                        pyGetD c_points idx_prev 0,
                        c_points.getD idx 0,
                        pyGetD c_points idx_next 0] n_segments)
  else []

/-- Function `trace_conic_off_points` from `font2vertices.py`.  The two `raise
ValueError` branches become `Except.error` with the source's message (the
second message says "Previous" in the source too). -/
def trace_conic_off_points (c_points : List Point) (c_tags : List FTTag)
    (idx : ℕ) (n_segments : ℕ) : Except String (List ℚ) :=
  let idx_prev : ℤ := (idx : ℤ) - 1
  let idx_next : ℤ := if idx = c_points.length - 1 then 0 else (idx : ℤ) + 1
  let startRes : Except String Point :=
    match pyGetD c_tags idx_prev .onCurve with
    | .onCurve => .ok (pyGetD c_points idx_prev 0)
    | .conic => .ok ((c_points.getD idx 0 + pyGetD c_points idx_prev 0) / (2 : ℚ))
    | t => .error ("While tracing point index " ++ toString idx ++
        ". Previous point with unsupported type: " ++ toString (tagNum t))
  let endRes : Except String Point :=
    match pyGetD c_tags idx_next .onCurve with
    | .onCurve => .ok (pyGetD c_points idx_next 0)
    | .conic => .ok ((c_points.getD idx 0 + pyGetD c_points idx_next 0) / (2 : ℚ))
    | t => .error ("While tracing point index " ++ toString idx ++
        ". Previous point with unsupported type: " ++ toString (tagNum t))
  match startRes with
  | .error e => .error e
  | .ok point_start =>
    match endRes with
    | .error e => .error e
    | .ok point_end =>
      .ok (flat (bezier_curve [point_start, c_points.getD idx 0, point_end] n_segments))

/-- The contribution of the point at index `i` to a contour's accumulated
draw buffer: the tag dispatch of the inner loop of `glyph2vertices`. -/
def pointContrib (c_points : List Point) (c_tags : List FTTag)
    (i : ℕ) (n_segments : ℕ) : Except String (List ℚ) :=
  match c_tags.getD i .onCurve with
  | .onCurve => .ok [(c_points.getD i 0).1, (c_points.getD i 0).2]
  | .conic => trace_conic_off_points c_points c_tags i n_segments
  | .cubic => .ok (trace_cubic_off_points c_points c_tags i n_segments)

/-- The `for i in range(len(c_points))` accumulation loop of
`glyph2vertices` over an explicit list of indices: contributions are
appended in order, and the first raised error aborts the walk. -/
def contourDrawPointsGo (c_points : List Point) (c_tags : List FTTag)
    (n_segments : ℕ) : List ℕ → Except String (List ℚ)
  | [] => .ok []
  | i :: rest =>
    match pointContrib c_points c_tags i n_segments with
    | .error e => .error e
    | .ok seg =>
      match contourDrawPointsGo c_points c_tags n_segments rest with
      | .error e => .error e
      | .ok tail => .ok (seg ++ tail)

/-- One contour's accumulated draw buffer (`c_draw_points` before the
normalisation step of `glyph2vertices`). -/
def contourDrawPoints (c_points : List Point) (c_tags : List FTTag)
    (n_segments : ℕ) : Except String (List ℚ) :=
  contourDrawPointsGo c_points c_tags n_segments (List.range c_points.length)

/-- The contour loop of `glyph2vertices`: `prev` is the running `prev_c`
(starting at `-1`), each contour is the slice `points[prev+1 : c+1]`, and the
accumulated buffer is divided by `vertAdvance`. -/
def glyph2verticesGo (points : List Point) (tags : List FTTag)
    (n_segments : ℕ) (vertAdvance : ℚ) (prev : ℤ) :
    List ℕ → Except String (List (List ℚ))
  | [] => .ok []
  | c :: rest =>
    match contourDrawPoints (pySlice points (prev + 1) ((c : ℤ) + 1))
        (pySlice tags (prev + 1) ((c : ℤ) + 1)) n_segments with
    | .error e => .error e
    | .ok dps =>
      match glyph2verticesGo points tags n_segments vertAdvance (c : ℤ) rest with
      | .error e => .error e
      | .ok tail => .ok ((dps.map (· / vertAdvance)) :: tail)

/-- Function `glyph2vertices` from `font2vertices.py`, over the outline data it reads
from the glyph: point array, contour-end indices, tag array and the
`vertAdvance` metric. -/
def glyph2vertices (points : List Point) (contours : List ℕ) (tags : List FTTag)
    (vertAdvance : ℚ) (n_segments : ℕ) : Except String (List (List ℚ)) :=
  glyph2verticesGo points tags n_segments vertAdvance (-1) contours

/-- The pre-normalisation contour buffers: same walk as `glyph2vertices` but
without the division by `vertAdvance`. -/
def glyph2verticesPreGo (points : List Point) (tags : List FTTag)
    (n_segments : ℕ) (prev : ℤ) : List ℕ → Except String (List (List ℚ))
  | [] => .ok []
  | c :: rest =>
    match contourDrawPoints (pySlice points (prev + 1) ((c : ℤ) + 1))
        (pySlice tags (prev + 1) ((c : ℤ) + 1)) n_segments with
    | .error e => .error e
    | .ok dps =>
      match glyph2verticesPreGo points tags n_segments (c : ℤ) rest with
      | .error e => .error e
      | .ok tail => .ok (dps :: tail)

/-- Pre-normalisation variant of `glyph2vertices`. -/
def glyph2verticesPre (points : List Point) (contours : List ℕ)
    (tags : List FTTag) (n_segments : ℕ) : Except String (List (List ℚ)) :=
  glyph2verticesPreGo points tags n_segments (-1) contours

/-- The sliding-window loop of `vertices2lines`:
`for i in range(0, len(contour), 2): contour[i:i+4]`, concatenated. -/
def contourSegments (contour : List ℚ) : List ℚ :=
  ((List.range ((contour.length + 1) / 2)).map
    (fun k : ℕ => pySlice contour (2 * (k : ℤ)) (2 * (k : ℤ) + 4))).flatten

/-- The contour-closing step of `vertices2lines`: `contour[-2:2]` when the
buffer length is odd, `contour[0:2]` when it is even. -/
def closingSeg (contour : List ℚ) : List ℚ :=
  if contour.length % 2 ≠ 0 then pySlice contour (-2) 2
  else pySlice contour 0 2

/-- Function `vertices2lines` from `font2vertices.py`. -/
def vertices2lines (contours : List (List ℚ)) : List ℚ :=
  contours.foldl (fun lines contour =>
    lines ++ contourSegments contour ++ closingSeg contour) []

/-- Anchor resolution as the spec words it: an OnCurve neighbour is its own
anchor, an OffConic neighbour contributes the exact midpoint with the
current point, and any other tag does not resolve. -/
def resolveAnchor (p_curr p_nb : Point) (tag : FTTag) : Option Point :=
  match tag with
  | .onCurve => some p_nb
  | .conic => some ((p_curr + p_nb) / (2 : ℚ))
  | .cubic => none

/-- The textbook Bernstein basis polynomial `C(n,i) u^i (1-u)^(n-i)`, as the
spec states it. -/
def bernsteinStd (i n : ℕ) (u : ℚ) : ℚ :=
  (n.choose i : ℚ) * u ^ i * (1 - u) ^ (n - i)

/-- Bézier evaluation as the spec states it: the Bernstein-weighted sum of
the control points at parameter `u`. -/
def specBezierPoint (points : List Point) (u : ℚ) : Point :=
  ∑ i ∈ Finset.range points.length,
    bernsteinStd i (points.length - 1) u • points.getD i 0

/-! ### Basic lemmas about the sampler -/

theorem flat_length (ps : List Point) : (flat ps).length = 2 * ps.length := by
  unfold flat
  induction ps with
  | nil => rfl
  | cons p ps ih =>
    simp only [List.map_cons, List.flatten_cons, List.length_append,
      List.length_cons, List.length_nil, ih]
    omega

theorem linspace_length (a b : ℚ) (n : ℕ) : (linspace a b n).length = n := by
  rw [linspace, List.length_map, List.length_range]

theorem bezier_curve_length (pts : List Point) (s : ℕ) :
    (bezier_curve pts s).length = s := by
  simp [bezier_curve, linspace_length]

theorem bernstein_poly_at_one (i n : ℕ) :
    bernstein_poly i n 1 = if i = 0 then 1 else 0 := by
  cases i with
  | zero => simp [bernstein_poly]
  | succ j => simp [bernstein_poly]

theorem bernstein_poly_at_zero (i n : ℕ) :
    bernstein_poly i n 0 = if i = n then 1 else 0 := by
  rcases lt_trichotomy i n with h | h | h
  · have hpos : n - i ≠ 0 := by omega
    simp [bernstein_poly, zero_pow hpos, Nat.ne_of_lt h]
  · subst h
    simp [bernstein_poly]
  · have : n.choose i = 0 := Nat.choose_eq_zero_of_lt h
    simp [bernstein_poly, this, Nat.ne_of_gt h]

theorem bezierPoint_at_one (pts : List Point) (h : 1 ≤ pts.length) :
    bezierPoint pts 1 = pts.getD 0 0 := by
  unfold bezierPoint
  have : ∀ i ∈ Finset.range pts.length,
      bernstein_poly i (pts.length - 1) 1 • pts.getD i 0 =
        if i = 0 then pts.getD i 0 else 0 := by
    intro i _
    rw [bernstein_poly_at_one]
    split <;> simp
  rw [Finset.sum_congr rfl this, Finset.sum_ite_eq' (Finset.range pts.length) 0
    (fun i => pts.getD i 0)]
  rw [if_pos (Finset.mem_range.mpr (by omega))]

theorem bezierPoint_at_zero (pts : List Point) (h : 1 ≤ pts.length) :
    bezierPoint pts 0 = pts.getD (pts.length - 1) 0 := by
  unfold bezierPoint
  have : ∀ i ∈ Finset.range pts.length,
      bernstein_poly i (pts.length - 1) 0 • pts.getD i 0 =
        if i = pts.length - 1 then pts.getD i 0 else 0 := by
    intro i _
    rw [bernstein_poly_at_zero]
    split <;> simp
  rw [Finset.sum_congr rfl this, Finset.sum_ite_eq' (Finset.range pts.length)
    (pts.length - 1) (fun i => pts.getD i 0)]
  rw [if_pos (Finset.mem_range.mpr (by omega))]

theorem bezier_curve_head (pts : List Point) (s : ℕ) (hs : 2 ≤ s)
    (h : 1 ≤ pts.length) :
    (bezier_curve pts s).head? = some (pts.getD 0 0) := by
  obtain ⟨m, rfl⟩ : ∃ m, s = m + 1 := ⟨s - 1, by omega⟩
  unfold bezier_curve linspace
  rw [List.range_succ_eq_map]
  simp only [List.map_cons, List.head?_cons, Nat.cast_zero]
  push_cast
  rw [show (1 : ℚ) + 0 * (0 - 1) / (((m : ℚ) + 1) - 1) = 1 by ring]
  rw [bezierPoint_at_one pts h]

theorem bezier_curve_last (pts : List Point) (s : ℕ) (hs : 2 ≤ s)
    (h : 1 ≤ pts.length) :
    (bezier_curve pts s).getLast? = some (pts.getD (pts.length - 1) 0) := by
  obtain ⟨m, rfl⟩ : ∃ m, s = m + 1 := ⟨s - 1, by omega⟩
  unfold bezier_curve linspace
  rw [List.range_succ]
  simp only [List.map_append, List.map_cons, List.map_nil, List.getLast?_concat]
  have hm : (1 : ℚ) ≤ (m : ℚ) := by
    have : 1 ≤ m := by omega
    exact_mod_cast this
  have hne : ((m : ℚ) + 1) - 1 ≠ 0 := by
    intro hc
    rw [add_sub_cancel_right] at hc
    rw [hc] at hm
    norm_num at hm
  push_cast
  rw [show (1 : ℚ) + (m : ℚ) * (0 - 1) / (((m : ℚ) + 1) - 1) = 0 by
    rw [add_sub_cancel_right]
    field_simp]
  rw [bezierPoint_at_zero pts h]

theorem bernstein_flip (i n : ℕ) (u : ℚ) :
    bernstein_poly i n (1 - u) = bernsteinStd i n u := by
  simp only [bernstein_poly, bernsteinStd, sub_sub_cancel]
  ring

theorem bezierPoint_one_sub (pts : List Point) (u : ℚ) :
    bezierPoint pts (1 - u) = specBezierPoint pts u := by
  unfold bezierPoint specBezierPoint
  exact Finset.sum_congr rfl (fun i _ => by rw [bernstein_flip])

theorem bezier_curve_getD (pts : List Point) (s k : ℕ) (hk : k < s) :
    (bezier_curve pts s).getD k 0 =
      bezierPoint pts (1 + (k : ℚ) * (0 - 1) / ((s : ℚ) - 1)) := by
  have hk' : k < (bezier_curve pts s).length := by
    rw [bezier_curve_length]
    exact hk
  rw [List.getD_eq_getElem _ _ hk']
  simp [bezier_curve, linspace]

/-! ### Python-indexing lemmas -/

theorem pyGetD_natCast {α : Type} (l : List α) (d : α) (n : ℕ) :
    pyGetD l (n : ℤ) d = l.getD n d := by
  unfold pyGetD
  rw [if_neg (by omega)]
  simp

theorem pyGetD_neg_one {α : Type} (l : List α) (d : α) :
    pyGetD l (-1) d = l.getD (l.length - 1) d := by
  unfold pyGetD
  rw [if_pos (by omega)]
  congr 1
  omega

/-! ### Claim C3: the sampler reproduces the first and last control points -/

/-- C3.  For every control-point list of length at least 2 and every
`sample_count ≥ 2`, the first point output by `bezier_curve` equals
`control_points[0]` exactly and the last equals the final control point
exactly. -/
theorem curve_sampler_endpoints (pts : List Point) (s : ℕ)
    (hn : 2 ≤ pts.length) (hs : 2 ≤ s) :
    (bezier_curve pts s).head? = some (pts.getD 0 0) ∧
    (bezier_curve pts s).getLast? = some (pts.getD (pts.length - 1) 0) :=
  ⟨bezier_curve_head pts s hs (by omega), bezier_curve_last pts s hs (by omega)⟩

/-- Witness for C3 at the control points `[(0,0),(2,4)]` with 3 samples. -/
theorem curve_sampler_endpoints_witness :
    2 ≤ ([((0 : ℚ), (0 : ℚ)), ((2 : ℚ), (4 : ℚ))] : List Point).length ∧
    2 ≤ 3 ∧
    ((bezier_curve [((0 : ℚ), (0 : ℚ)), ((2 : ℚ), (4 : ℚ))] 3).head? =
        some (([((0 : ℚ), (0 : ℚ)), ((2 : ℚ), (4 : ℚ))] : List Point).getD 0 0) ∧
      (bezier_curve [((0 : ℚ), (0 : ℚ)), ((2 : ℚ), (4 : ℚ))] 3).getLast? =
        some (([((0 : ℚ), (0 : ℚ)), ((2 : ℚ), (4 : ℚ))] : List Point).getD
          (([((0 : ℚ), (0 : ℚ)), ((2 : ℚ), (4 : ℚ))] : List Point).length - 1) 0)) :=
  ⟨by decide, by decide,
    curve_sampler_endpoints [((0 : ℚ), (0 : ℚ)), ((2 : ℚ), (4 : ℚ))] 3
      (by decide) (by decide)⟩

/-! ### Claim C4: the sampler is standard Bernstein evaluation on a uniform
closed parameter grid -/

/-- C4.  For control points `P_0..P_{n-1}` with `n ≥ 2` and `sample_count
s ≥ 2`, `bezier_curve` returns `s` points, and the `k`-th output point is the
standard Bernstein-basis evaluation at the uniform parameter
`u = k / (s - 1)` over `[0, 1]`. -/
theorem curve_sampler_bernstein (pts : List Point) (s : ℕ)
    (hn : 2 ≤ pts.length) (hs : 2 ≤ s) :
    (bezier_curve pts s).length = s ∧
    ∀ k, k < s → (bezier_curve pts s).getD k 0 =
      specBezierPoint pts ((k : ℚ) / ((s : ℚ) - 1)) := by
  refine ⟨bezier_curve_length pts s, fun k hk => ?_⟩
  rw [bezier_curve_getD pts s k hk,
    show (1 : ℚ) + (k : ℚ) * (0 - 1) / ((s : ℚ) - 1)
        = 1 - (k : ℚ) / ((s : ℚ) - 1) by ring,
    bezierPoint_one_sub]

/-- Witness for C4 at the quadratic `[(0,0),(1,0),(1,1)]` with 3 samples,
checking the middle sample `k = 1`. -/
theorem curve_sampler_bernstein_witness :
    2 ≤ ([((0 : ℚ), (0 : ℚ)), ((1 : ℚ), (0 : ℚ)), ((1 : ℚ), (1 : ℚ))] : List Point).length ∧
    2 ≤ 3 ∧
    (bezier_curve [((0 : ℚ), (0 : ℚ)), ((1 : ℚ), (0 : ℚ)), ((1 : ℚ), (1 : ℚ))] 3).length = 3 ∧
    (bezier_curve [((0 : ℚ), (0 : ℚ)), ((1 : ℚ), (0 : ℚ)), ((1 : ℚ), (1 : ℚ))] 3).getD 1 0 =
      specBezierPoint [((0 : ℚ), (0 : ℚ)), ((1 : ℚ), (0 : ℚ)), ((1 : ℚ), (1 : ℚ))]
        (((1 : ℕ) : ℚ) / (((3 : ℕ) : ℚ) - 1)) :=
  ⟨by decide, by decide,
    (curve_sampler_bernstein [((0 : ℚ), (0 : ℚ)), ((1 : ℚ), (0 : ℚ)), ((1 : ℚ), (1 : ℚ))] 3
      (by decide) (by decide)).1,
    (curve_sampler_bernstein [((0 : ℚ), (0 : ℚ)), ((1 : ℚ), (0 : ℚ)), ((1 : ℚ), (1 : ℚ))] 3
      (by decide) (by decide)).2 1 (by decide)⟩

/-! ### Claim C1: conic tracing resolves anchors and samples the quadratic -/

/-- C1.  At an OffConic point `idx` (with `1 ≤ idx`, so the literal
`points[idx-1]` of the claim applies; index-0 wrap-around is Claim C10), the
start anchor is resolved from the previous point (the point itself when
OnCurve, the exact midpoint with `points[idx]` when OffConic), the end anchor
symmetrically from the next point (wrapping to 0 after the last index), and
the result is the quadratic Bézier `[start, points[idx], end]` sampled with
the caller-supplied segment count. -/
theorem conic_trace_resolves_anchors (pts : List Point) (tags : List FTTag)
    (idx s : ℕ) (sa ea : Point)
    (h1 : 1 ≤ idx) (h2 : idx < pts.length)
    (htag : tags.getD idx .onCurve = .conic)
    (hsa : resolveAnchor (pts.getD idx 0) (pts.getD (idx - 1) 0)
        (tags.getD (idx - 1) .onCurve) = some sa)
    (hea : resolveAnchor (pts.getD idx 0)
        (pts.getD (if idx = pts.length - 1 then 0 else idx + 1) 0)
        (tags.getD (if idx = pts.length - 1 then 0 else idx + 1) .onCurve) = some ea) :
    trace_conic_off_points pts tags idx s =
      .ok (flat (bezier_curve [sa, pts.getD idx 0, ea] s)) := by
  have hprev : (idx : ℤ) - 1 = ((idx - 1 : ℕ) : ℤ) := by omega
  have hnext : (if idx = pts.length - 1 then (0 : ℤ) else (idx : ℤ) + 1) =
      ((if idx = pts.length - 1 then 0 else idx + 1 : ℕ) : ℤ) := by
    split <;> simp
  simp only [trace_conic_off_points, hprev, hnext, pyGetD_natCast]
  cases hp : tags.getD (idx - 1) FTTag.onCurve with
  | cubic =>
    rw [hp] at hsa
    simp [resolveAnchor] at hsa
  | onCurve =>
    rw [hp] at hsa
    simp only [resolveAnchor, Option.some.injEq] at hsa
    cases hn : tags.getD (if idx = pts.length - 1 then 0 else idx + 1) FTTag.onCurve with
    | cubic =>
      rw [hn] at hea
      simp [resolveAnchor] at hea
    | onCurve =>
      rw [hn] at hea
      simp only [resolveAnchor, Option.some.injEq] at hea
      subst hsa
      subst hea
      simp [List.getD_eq_getElem?_getD]
    | conic =>
      rw [hn] at hea
      simp only [resolveAnchor, Option.some.injEq] at hea
      subst hsa
      subst hea
      simp [List.getD_eq_getElem?_getD]
  | conic =>
    rw [hp] at hsa
    simp only [resolveAnchor, Option.some.injEq] at hsa
    cases hn : tags.getD (if idx = pts.length - 1 then 0 else idx + 1) FTTag.onCurve with
    | cubic =>
      rw [hn] at hea
      simp [resolveAnchor] at hea
    | onCurve =>
      rw [hn] at hea
      simp only [resolveAnchor, Option.some.injEq] at hea
      subst hsa
      subst hea
      simp [List.getD_eq_getElem?_getD]
    | conic =>
      rw [hn] at hea
      simp only [resolveAnchor, Option.some.injEq] at hea
      subst hsa
      subst hea
      simp [List.getD_eq_getElem?_getD]

/-- Witness for C1: an OffConic point between an OnCurve and an OffConic
neighbour in a 4-point contour. -/
theorem conic_trace_resolves_anchors_witness :
    trace_conic_off_points
        [((0 : ℚ), (0 : ℚ)), ((2 : ℚ), (2 : ℚ)), ((4 : ℚ), (2 : ℚ)), ((6 : ℚ), (0 : ℚ))]
        [.onCurve, .conic, .conic, .onCurve] 1 4 =
      .ok (flat (bezier_curve
        [((0 : ℚ), (0 : ℚ)), ((2 : ℚ), (2 : ℚ)), ((3 : ℚ), (2 : ℚ))] 4)) := by
  have h := conic_trace_resolves_anchors
    [((0 : ℚ), (0 : ℚ)), ((2 : ℚ), (2 : ℚ)), ((4 : ℚ), (2 : ℚ)), ((6 : ℚ), (0 : ℚ))]
    [.onCurve, .conic, .conic, .onCurve] 1 4
    ((0 : ℚ), (0 : ℚ)) ((3 : ℚ), (2 : ℚ))
    (by decide) (by decide) (by decide)
    (by norm_num [resolveAnchor])
    (by norm_num [resolveAnchor, pointDiv_def, Prod.mk_add_mk])
  exact h

/-! ### Claim C2: cubic pairs trace once, from the second point of the pair -/

/-- C2.  For a cubic pair `(idx-1, idx)` (both OffCubic, the point before the
pair not OffCubic; `2 ≤ idx` keeps the claim's literal indices, wrap-around
being Claim C10), `trace_cubic_off_points` at `idx-1` returns the empty
buffer, and at `idx` returns exactly `sample_count` points — the cubic Bézier
on `[point before the pair, first of pair, second of pair, point after the
pair]` — whose first point is the point before the pair and whose last is the
point after the pair. -/
theorem cubic_pair_trace (pts : List Point) (tags : List FTTag) (idx s : ℕ)
    (h2 : 2 ≤ idx) (hlt : idx < pts.length) (hs : 2 ≤ s)
    (hp1 : tags.getD (idx - 1) .onCurve = .cubic)
    (hp2 : tags.getD idx .onCurve = .cubic)
    (hb : tags.getD (idx - 2) .onCurve ≠ .cubic) :
    trace_cubic_off_points pts tags (idx - 1) s = [] ∧
    trace_cubic_off_points pts tags idx s =
      flat (bezier_curve [pts.getD (idx - 2) 0, pts.getD (idx - 1) 0,
        pts.getD idx 0,
        pts.getD (if idx = pts.length - 1 then 0 else idx + 1) 0] s) ∧
    (trace_cubic_off_points pts tags idx s).length = 2 * s ∧
    (bezier_curve [pts.getD (idx - 2) 0, pts.getD (idx - 1) 0, pts.getD idx 0,
        pts.getD (if idx = pts.length - 1 then 0 else idx + 1) 0] s).head? =
      some (pts.getD (idx - 2) 0) ∧
    (bezier_curve [pts.getD (idx - 2) 0, pts.getD (idx - 1) 0, pts.getD idx 0,
        pts.getD (if idx = pts.length - 1 then 0 else idx + 1) 0] s).getLast? =
      some (pts.getD (if idx = pts.length - 1 then 0 else idx + 1) 0) := by
  have hprev1 : ((idx - 1 : ℕ) : ℤ) - 1 = ((idx - 2 : ℕ) : ℤ) := by omega
  have hprev2 : ((idx : ℕ) : ℤ) - 1 = ((idx - 1 : ℕ) : ℤ) := by omega
  have hnextC : (if idx = pts.length - 1 then (0 : ℤ) else (idx : ℤ) + 1) =
      ((if idx = pts.length - 1 then 0 else idx + 1 : ℕ) : ℤ) := by
    split <;> simp
  have hmain : trace_cubic_off_points pts tags idx s =
      flat (bezier_curve [pts.getD (idx - 2) 0, pts.getD (idx - 1) 0,
        pts.getD idx 0,
        pts.getD (if idx = pts.length - 1 then 0 else idx + 1) 0] s) := by
    simp only [trace_cubic_off_points, hprev2, hnextC, pyGetD_natCast]
    rw [if_pos ⟨hp1, hp2⟩]
    rw [show ((idx - 1 : ℕ) : ℤ) - 1 = ((idx - 2 : ℕ) : ℤ) from hprev1,
      pyGetD_natCast]
  refine ⟨?_, hmain, ?_, ?_, ?_⟩
  · simp only [trace_cubic_off_points, hprev1, pyGetD_natCast]
    exact if_neg (fun hAB => hb hAB.1)
  · rw [hmain, flat_length, bezier_curve_length]
  · have h := bezier_curve_head [pts.getD (idx - 2) 0, pts.getD (idx - 1) 0,
      pts.getD idx 0,
      pts.getD (if idx = pts.length - 1 then 0 else idx + 1) 0] s hs (by simp)
    simpa using h
  · have h := bezier_curve_last [pts.getD (idx - 2) 0, pts.getD (idx - 1) 0,
      pts.getD idx 0,
      pts.getD (if idx = pts.length - 1 then 0 else idx + 1) 0] s hs (by simp)
    simpa using h

/-- Witness for C2: cubic pair at indices (1,2) of a 5-point contour. -/
theorem cubic_pair_trace_witness :
    trace_cubic_off_points
        [((0 : ℚ), (0 : ℚ)), ((1 : ℚ), (2 : ℚ)), ((3 : ℚ), (2 : ℚ)), ((4 : ℚ), (0 : ℚ)), ((5 : ℚ), (5 : ℚ))]
        [.onCurve, .cubic, .cubic, .onCurve, .onCurve] 1 2 = [] ∧
    trace_cubic_off_points
        [((0 : ℚ), (0 : ℚ)), ((1 : ℚ), (2 : ℚ)), ((3 : ℚ), (2 : ℚ)), ((4 : ℚ), (0 : ℚ)), ((5 : ℚ), (5 : ℚ))]
        [.onCurve, .cubic, .cubic, .onCurve, .onCurve] 2 2 =
      flat (bezier_curve [((0 : ℚ), (0 : ℚ)), ((1 : ℚ), (2 : ℚ)), ((3 : ℚ), (2 : ℚ)), ((4 : ℚ), (0 : ℚ))] 2) ∧
    (trace_cubic_off_points
        [((0 : ℚ), (0 : ℚ)), ((1 : ℚ), (2 : ℚ)), ((3 : ℚ), (2 : ℚ)), ((4 : ℚ), (0 : ℚ)), ((5 : ℚ), (5 : ℚ))]
        [.onCurve, .cubic, .cubic, .onCurve, .onCurve] 2 2).length = 2 * 2 ∧
    (bezier_curve [((0 : ℚ), (0 : ℚ)), ((1 : ℚ), (2 : ℚ)), ((3 : ℚ), (2 : ℚ)), ((4 : ℚ), (0 : ℚ))] 2).head? =
      some ((0 : ℚ), (0 : ℚ)) ∧
    (bezier_curve [((0 : ℚ), (0 : ℚ)), ((1 : ℚ), (2 : ℚ)), ((3 : ℚ), (2 : ℚ)), ((4 : ℚ), (0 : ℚ))] 2).getLast? =
      some ((4 : ℚ), (0 : ℚ)) := by
  have h := cubic_pair_trace
    [((0 : ℚ), (0 : ℚ)), ((1 : ℚ), (2 : ℚ)), ((3 : ℚ), (2 : ℚ)), ((4 : ℚ), (0 : ℚ)), ((5 : ℚ), (5 : ℚ))]
    [.onCurve, .cubic, .cubic, .onCurve, .onCurve] 2 2
    (by decide) (by decide) (by decide) (by decide) (by decide) (by decide)
  simpa using h

/-! ### Claim C9: an isolated OffCubic point yields empty output, no error -/

/-- C9.  At an OffCubic point whose (cyclic) previous point is not OffCubic,
`trace_cubic_off_points` returns the empty buffer; the function is total, so
no error is raised. -/
theorem cubic_isolated_empty (pts : List Point) (tags : List FTTag)
    (idx s : ℕ) (htag : tags.getD idx .onCurve = .cubic)
    (hprev : pyGetD tags ((idx : ℤ) - 1) .onCurve ≠ .cubic) :
    trace_cubic_off_points pts tags idx s = [] := by
  simp [trace_cubic_off_points, hprev]

/-- Witness for C9: an OffCubic point after an OnCurve point. -/
theorem cubic_isolated_empty_witness :
    trace_cubic_off_points [((0 : ℚ), (0 : ℚ)), ((1 : ℚ), (1 : ℚ))]
      [.onCurve, .cubic] 1 5 = [] :=
  cubic_isolated_empty [((0 : ℚ), (0 : ℚ)), ((1 : ℚ), (1 : ℚ))]
    [.onCurve, .cubic] 1 5 (by decide) (by decide)

/-! ### Claim C10: the previous direction wraps cyclically at index 0 -/

/-- C10.  The "previous" direction wraps at the start of a contour: for a
contour of at least 2 points, `trace_conic_off_points` at `idx = 0` resolves
its start anchor from the contour's last point (index `N-1`), and
`trace_cubic_off_points` for a cubic pair at indices `(0, 1)` takes the
contour's last point as the point before the pair. -/
theorem trace_wraps_at_contour_start :
    (∀ (pts : List Point) (tags : List FTTag) (s : ℕ) (sa ea : Point),
      tags.length = pts.length → 2 ≤ pts.length →
      resolveAnchor (pts.getD 0 0) (pts.getD (pts.length - 1) 0)
          (tags.getD (pts.length - 1) .onCurve) = some sa →
      resolveAnchor (pts.getD 0 0) (pts.getD 1 0) (tags.getD 1 .onCurve) = some ea →
      trace_conic_off_points pts tags 0 s =
        .ok (flat (bezier_curve [sa, pts.getD 0 0, ea] s))) ∧
    (∀ (pts : List Point) (tags : List FTTag) (s : ℕ),
      2 ≤ pts.length →
      tags.getD 0 .onCurve = .cubic → tags.getD 1 .onCurve = .cubic →
      trace_cubic_off_points pts tags 1 s =
        flat (bezier_curve [pts.getD (pts.length - 1) 0, pts.getD 0 0,
          pts.getD 1 0,
          pts.getD (if 1 = pts.length - 1 then 0 else 2) 0] s)) := by
  constructor
  · intro pts tags s sa ea hlen hN hsa hea
    have hne : ¬(0 = pts.length - 1) := by omega
    have hprevT : pyGetD tags ((0 : ℤ) - 1) FTTag.onCurve =
        tags.getD (pts.length - 1) FTTag.onCurve := by
      rw [show ((0 : ℤ) - 1) = (-1 : ℤ) by ring, pyGetD_neg_one, hlen]
    have hprevP : pyGetD pts ((0 : ℤ) - 1) 0 = pts.getD (pts.length - 1) 0 := by
      rw [show ((0 : ℤ) - 1) = (-1 : ℤ) by ring, pyGetD_neg_one]
    simp only [trace_conic_off_points, Nat.cast_zero, hne, if_false, hprevT,
      hprevP, zero_add, show ((0 : ℤ) + 1) = ((1 : ℕ) : ℤ) by simp,
      pyGetD_natCast]
    cases hp : tags.getD (pts.length - 1) FTTag.onCurve with
    | cubic =>
      rw [hp] at hsa
      simp [resolveAnchor] at hsa
    | onCurve =>
      rw [hp] at hsa
      simp only [resolveAnchor, Option.some.injEq] at hsa
      cases hn : tags.getD 1 FTTag.onCurve with
      | cubic =>
        rw [hn] at hea
        simp [resolveAnchor] at hea
      | onCurve =>
        rw [hn] at hea
        simp only [resolveAnchor, Option.some.injEq] at hea
        subst hsa
        subst hea
        simp [List.getD_eq_getElem?_getD]
      | conic =>
        rw [hn] at hea
        simp only [resolveAnchor, Option.some.injEq] at hea
        subst hsa
        subst hea
        simp [List.getD_eq_getElem?_getD]
    | conic =>
      rw [hp] at hsa
      simp only [resolveAnchor, Option.some.injEq] at hsa
      cases hn : tags.getD 1 FTTag.onCurve with
      | cubic =>
        rw [hn] at hea
        simp [resolveAnchor] at hea
      | onCurve =>
        rw [hn] at hea
        simp only [resolveAnchor, Option.some.injEq] at hea
        subst hsa
        subst hea
        simp [List.getD_eq_getElem?_getD]
      | conic =>
        rw [hn] at hea
        simp only [resolveAnchor, Option.some.injEq] at hea
        subst hsa
        subst hea
        simp [List.getD_eq_getElem?_getD]
  · intro pts tags s hN h0 h1
    have hprevP : pyGetD pts (((1 : ℕ) : ℤ) - 1 - 1) 0 =
        pts.getD (pts.length - 1) 0 := by
      rw [show (((1 : ℕ) : ℤ) - 1 - 1) = (-1 : ℤ) by ring, pyGetD_neg_one]
    have hnextC : (if 1 = pts.length - 1 then (0 : ℤ) else ((1 : ℕ) : ℤ) + 1) =
        ((if 1 = pts.length - 1 then 0 else 2 : ℕ) : ℤ) := by
      split <;> simp
    simp only [trace_cubic_off_points, hprevP, hnextC, pyGetD_natCast,
      show (((1 : ℕ) : ℤ) - 1) = ((0 : ℕ) : ℤ) by simp]
    rw [if_pos ⟨h0, h1⟩]
    rw [show (((0 : ℕ) : ℤ) - 1) = (-1 : ℤ) by simp, pyGetD_neg_one]

/-- Witness for C10: a 3-point contour exercising both wrap-arounds (conic
trace at index 0 whose previous point is index 2; cubic pair at (0,1) whose
point-before is index 2). -/
theorem trace_wraps_at_contour_start_witness :
    trace_conic_off_points
        [((0 : ℚ), (0 : ℚ)), ((2 : ℚ), (0 : ℚ)), ((1 : ℚ), (1 : ℚ))]
        [.conic, .onCurve, .onCurve] 0 3 =
      .ok (flat (bezier_curve
        [((1 : ℚ), (1 : ℚ)), ((0 : ℚ), (0 : ℚ)), ((2 : ℚ), (0 : ℚ))] 3)) ∧
    trace_cubic_off_points
        [((0 : ℚ), (0 : ℚ)), ((2 : ℚ), (0 : ℚ)), ((1 : ℚ), (1 : ℚ))]
        [.cubic, .cubic, .onCurve] 1 3 =
      flat (bezier_curve
        [((1 : ℚ), (1 : ℚ)), ((0 : ℚ), (0 : ℚ)), ((2 : ℚ), (0 : ℚ)), ((1 : ℚ), (1 : ℚ))] 3) := by
  constructor
  · have h := trace_wraps_at_contour_start.1
      [((0 : ℚ), (0 : ℚ)), ((2 : ℚ), (0 : ℚ)), ((1 : ℚ), (1 : ℚ))]
      [.conic, .onCurve, .onCurve] 3 ((1 : ℚ), (1 : ℚ)) ((2 : ℚ), (0 : ℚ))
      (by decide) (by decide) (by decide) (by decide)
    simpa using h
  · have h := trace_wraps_at_contour_start.2
      [((0 : ℚ), (0 : ℚ)), ((2 : ℚ), (0 : ℚ)), ((1 : ℚ), (1 : ℚ))]
      [.cubic, .cubic, .onCurve] 3 (by decide) (by decide) (by decide)
    simpa using h

/-! ### Claim C7: conic tracing errors on unsupported neighbour tags -/

/-- C7.  At an OffConic point `idx` (`1 ≤ idx` for the literal previous
index): if the previous or the next point is tagged neither OnCurve nor
OffConic, `trace_conic_off_points` raises the structural error, whose message
identifies the point index `idx`; if both neighbours are OnCurve or OffConic,
no error is raised. -/
theorem conic_trace_neighbour_errors (pts : List Point) (tags : List FTTag)
    (idx s : ℕ) (h1 : 1 ≤ idx) (h2 : idx < pts.length)
    (htag : tags.getD idx .onCurve = .conic) :
    (((tags.getD (idx - 1) .onCurve ≠ .onCurve ∧
        tags.getD (idx - 1) .onCurve ≠ .conic) ∨
      (tags.getD (if idx = pts.length - 1 then 0 else idx + 1) .onCurve ≠ .onCurve ∧
        tags.getD (if idx = pts.length - 1 then 0 else idx + 1) .onCurve ≠ .conic)) →
      ∃ rest, trace_conic_off_points pts tags idx s =
        .error ("While tracing point index " ++ toString idx ++ rest)) ∧
    (((tags.getD (idx - 1) .onCurve = .onCurve ∨
        tags.getD (idx - 1) .onCurve = .conic) ∧
      (tags.getD (if idx = pts.length - 1 then 0 else idx + 1) .onCurve = .onCurve ∨
        tags.getD (if idx = pts.length - 1 then 0 else idx + 1) .onCurve = .conic)) →
      ∃ out, trace_conic_off_points pts tags idx s = .ok out) := by
  have hprevC : ((idx : ℤ) - 1) = ((idx - 1 : ℕ) : ℤ) := by omega
  have hnextC : (if idx = pts.length - 1 then (0 : ℤ) else (idx : ℤ) + 1) =
      ((if idx = pts.length - 1 then 0 else idx + 1 : ℕ) : ℤ) := by
    split <;> simp
  constructor
  · intro hbad
    simp only [trace_conic_off_points, hprevC, hnextC, pyGetD_natCast]
    rcases hbad with ⟨hA, hB⟩ | ⟨hA, hB⟩
    · have hcub : tags.getD (idx - 1) FTTag.onCurve = FTTag.cubic := by
        cases h : tags.getD (idx - 1) FTTag.onCurve <;> simp_all
      rw [hcub]
      exact ⟨". Previous point with unsupported type: " ++ toString (tagNum FTTag.cubic),
        by simp [String.append_assoc]⟩
    · have hcub : tags.getD (if idx = pts.length - 1 then 0 else idx + 1)
          FTTag.onCurve = FTTag.cubic := by
        cases h : tags.getD (if idx = pts.length - 1 then 0 else idx + 1)
          FTTag.onCurve <;> simp_all
      rw [hcub]
      refine ⟨". Previous point with unsupported type: " ++ toString (tagNum FTTag.cubic), ?_⟩
      cases hp : tags.getD (idx - 1) FTTag.onCurve <;>
        simp [String.append_assoc]
  · intro hgood
    simp only [trace_conic_off_points, hprevC, hnextC, pyGetD_natCast]
    rcases hgood with ⟨hA, hB⟩
    rcases hA with hA | hA <;> rcases hB with hB | hB <;>
      rw [hA, hB] <;> exact ⟨_, rfl⟩

/-- Witness for C7: one contour whose OffConic point at index 1 has an
OffCubic previous neighbour (error case), and one whose neighbours are
OnCurve (no error). -/
theorem conic_trace_neighbour_errors_witness :
    (∃ rest, trace_conic_off_points
        [((0 : ℚ), (0 : ℚ)), ((1 : ℚ), (1 : ℚ)), ((2 : ℚ), (0 : ℚ))]
        [.cubic, .conic, .onCurve] 1 5 =
      .error ("While tracing point index " ++ toString 1 ++ rest)) ∧
    (∃ out, trace_conic_off_points
        [((0 : ℚ), (0 : ℚ)), ((1 : ℚ), (1 : ℚ)), ((2 : ℚ), (0 : ℚ))]
        [.onCurve, .conic, .onCurve] 1 5 = .ok out) :=
  ⟨(conic_trace_neighbour_errors
      [((0 : ℚ), (0 : ℚ)), ((1 : ℚ), (1 : ℚ)), ((2 : ℚ), (0 : ℚ))]
      [.cubic, .conic, .onCurve] 1 5 (by decide) (by decide) (by decide)).1
      (Or.inl (by decide)),
   (conic_trace_neighbour_errors
      [((0 : ℚ), (0 : ℚ)), ((1 : ℚ), (1 : ℚ)), ((2 : ℚ), (0 : ℚ))]
      [.onCurve, .conic, .onCurve] 1 5 (by decide) (by decide) (by decide)).2
      ⟨Or.inl (by decide), Or.inl (by decide)⟩⟩

/-! ### Claim C8: the contour builder normalizes by dividing by vertAdvance -/

/-- C8.  For every glyph outline, the contour builder's output equals the
pre-normalisation accumulated buffers (direct OnCurve points and sampled arc
points in walk order) with every coordinate divided by the glyph's
vertical-advance metric. -/
theorem contour_builder_normalizes (points : List Point) (contours : List ℕ)
    (tags : List FTTag) (vertAdvance : ℚ) (s : ℕ) :
    glyph2vertices points contours tags vertAdvance s =
      (glyph2verticesPre points contours tags s).map
        (fun cnts => cnts.map (fun c => c.map (· / vertAdvance))) := by
  unfold glyph2vertices glyph2verticesPre
  suffices h : ∀ (prev : ℤ) (cs : List ℕ),
      glyph2verticesGo points tags s vertAdvance prev cs =
        (glyph2verticesPreGo points tags s prev cs).map
          (fun cnts => cnts.map (fun c => c.map (· / vertAdvance))) by
    exact h (-1) contours
  intro prev cs
  induction cs generalizing prev with
  | nil => rfl
  | cons c rest ih =>
    simp only [glyph2verticesGo, glyph2verticesPreGo]
    cases contourDrawPoints (pySlice points (prev + 1) ((c : ℤ) + 1))
        (pySlice tags (prev + 1) ((c : ℤ) + 1)) s with
    | error e => rfl
    | ok dps =>
      rw [ih (c : ℤ)]
      cases glyph2verticesPreGo points tags s (c : ℤ) rest with
      | error e => rfl
      | ok tail => rfl

/-! ### Claim C5: round trip of the unit-square contour -/

/-- C5.  A glyph with one contour of the 4 OnCurve points
`[(0,0),(0,1),(1,1),(1,0)]` and vertical advance 1 traces to the same 4
points unchanged, and the line flattener turns that traced contour into
exactly the 4 segments `(0,0)-(0,1)`, `(0,1)-(1,1)`, `(1,1)-(1,0)`,
`(1,0)-(0,0)`. -/
theorem square_contour_round_trip :
    glyph2vertices
        [((0 : ℚ), (0 : ℚ)), ((0 : ℚ), (1 : ℚ)), ((1 : ℚ), (1 : ℚ)), ((1 : ℚ), (0 : ℚ))]
        [3] [.onCurve, .onCurve, .onCurve, .onCurve] 1 5 =
      .ok [[0, 0, 0, 1, 1, 1, 1, 0]] ∧
    vertices2lines [[0, 0, 0, 1, 1, 1, 1, 0]] =
      [0, 0, 0, 1, 0, 1, 1, 1, 1, 1, 1, 0, 1, 0, 0, 0] := by
  constructor
  · have h1 : glyph2vertices
        [((0 : ℚ), (0 : ℚ)), ((0 : ℚ), (1 : ℚ)), ((1 : ℚ), (1 : ℚ)), ((1 : ℚ), (0 : ℚ))]
        [3] [.onCurve, .onCurve, .onCurve, .onCurve] 1 5 =
        .ok [([0, 0, 0, 1, 1, 1, 1, 0] : List ℚ).map (· / 1)] := rfl
    rw [h1]
    norm_num
  · rfl

/-! ### Claim C6: the contour-closing rule of the line flattener -/

/-- C6, amended.  For a traced contour buffer of even length (at least 2),
the flattener's output ends with the closing segment connecting the last
point (`drop (len-2)`) to the first point (`take 2`); for a buffer of odd
length at least 5, the closing step's slice `contour[-2:2]` is the empty
selection.  (The original claim's odd case fails for buffers of length 1 or
3, where the slice is non-empty; see the counterexample.) -/
theorem flattener_closing (c1 c2 : List ℚ)
    (h1 : c1.length % 2 = 0) (h1b : 2 ≤ c1.length)
    (h2 : c2.length % 2 = 1) (h2b : 5 ≤ c2.length) :
    (∃ pre, vertices2lines [c1] =
      pre ++ c1.drop (c1.length - 2) ++ c1.take 2) ∧
    closingSeg c2 = [] := by
  constructor
  · obtain ⟨m, hm⟩ : ∃ m, c1.length = 2 * m := ⟨c1.length / 2, by omega⟩
    have hm1 : 1 ≤ m := by omega
    refine ⟨((List.range (m - 1)).map
      (fun k : ℕ => pySlice c1 (2 * (k : ℤ)) (2 * (k : ℤ) + 4))).flatten, ?_⟩
    have hclose : closingSeg c1 = c1.take 2 := by
      unfold closingSeg
      rw [if_neg (by omega)]
      unfold pySlice
      simp only
      norm_num
      omega
    have hlast : pySlice c1 (2 * ((m - 1 : ℕ) : ℤ)) (2 * ((m - 1 : ℕ) : ℤ) + 4) =
        c1.drop (c1.length - 2) := by
      unfold pySlice
      simp only
      rw [if_neg (by omega), if_neg (by omega)]
      rw [show (min (2 * ((m - 1 : ℕ) : ℤ)) ((c1.length : ℤ))).toNat =
          c1.length - 2 by omega]
      rw [show ((min (2 * ((m - 1 : ℕ) : ℤ) + 4) ((c1.length : ℤ))) -
          (min (2 * ((m - 1 : ℕ) : ℤ)) ((c1.length : ℤ)))).toNat = 2 by omega]
      apply List.take_of_length_le
      simp only [List.length_drop]
      omega
    have hseg : contourSegments c1 =
        ((List.range (m - 1)).map
          (fun k : ℕ => pySlice c1 (2 * (k : ℤ)) (2 * (k : ℤ) + 4))).flatten ++
          c1.drop (c1.length - 2) := by
      unfold contourSegments
      rw [show (c1.length + 1) / 2 = (m - 1) + 1 by omega, List.range_succ,
        List.map_append, List.flatten_append]
      simp only [List.map_cons, List.map_nil, List.flatten_cons,
        List.flatten_nil, List.append_nil]
      rw [hlast]
    show vertices2lines [c1] = _
    unfold vertices2lines
    simp only [List.foldl_cons, List.foldl_nil, List.nil_append]
    rw [hseg, hclose, List.append_assoc]
  · unfold closingSeg
    rw [if_pos (by omega)]
    unfold pySlice
    simp only
    rw [List.take_eq_nil_iff]
    left
    norm_num
    omega

/-- Witness for C6 at the even buffer `[1,2,3,4]` and the odd buffer
`[0,1,2,3,4]`. -/
theorem flattener_closing_witness :
    (∃ pre, vertices2lines [[(1 : ℚ), 2, 3, 4]] =
      pre ++ ([(1 : ℚ), 2, 3, 4] : List ℚ).drop
        (([(1 : ℚ), 2, 3, 4] : List ℚ).length - 2) ++
        ([(1 : ℚ), 2, 3, 4] : List ℚ).take 2) ∧
    closingSeg [(0 : ℚ), 1, 2, 3, 4] = [] :=
  flattener_closing [(1 : ℚ), 2, 3, 4] [(0 : ℚ), 1, 2, 3, 4]
    (by decide) (by decide) (by decide) (by decide)

/-- Counterexample to C6 as stated: the buffer `[0,1,2]` has odd length, yet
the closing step's slice `contour[-2:2]` is `[1]`, not the empty
selection. -/
theorem flattener_closing_counterexample :
    ([(0 : ℚ), 1, 2] : List ℚ).length % 2 = 1 ∧
    closingSeg [(0 : ℚ), 1, 2] = [1] ∧
    closingSeg [(0 : ℚ), 1, 2] ≠ [] := by
  refine ⟨rfl, rfl, ?_⟩
  intro h
  exact absurd h (by decide)

end FontTracer
